import Mathlib

/-!
Verification development for the analysis pipeline in
`my-data-ui/scripts/precompute_analysis.py`.

The script is embedded shallowly: every pure computation of the script is a
Lean function over explicit data; Python dictionaries become association
lists (which preserve insertion order, as CPython dicts do); Python sets
become duplicate-free lists; the external numeric collaborators (the VADER
scorer, the LDA fit, PCA, K-Means) are parameters of the embedding, since
the spec treats them as opaque collaborators behind a stable interface.
Machine floats of the scorer are modelled as rationals.
-/

namespace PA

/-! ### String utilities

Lean's built-in `String` comparison functions do not reduce in the kernel,
so the embedding uses its own code-point-wise comparison on the underlying
character lists.  This is exactly Python's string ordering (lexicographic
by code point).  The bridge lemmas connect it to Mathlib's linear order on
`String`, which is the same order.
-/

/-- Boolean lexicographic comparison of character lists by code point. -/
def charListLt : List Char → List Char → Bool
  | [], [] => false
  | [], _ :: _ => true
  | _ :: _, [] => false
  | a :: as, b :: bs =>
    if a < b then true
    else if b < a then false
    else charListLt as bs

/-- Python `a < b` on strings: code-point lexicographic comparison. -/
def strLt (a b : String) : Bool := charListLt a.data b.data

/-- Python `a <= b` on strings. -/
def strLe (a b : String) : Bool := ! strLt b a

/-- Python `str.lower()` (on the character level, as the script only
feeds it ASCII-ish text). -/
def strLower (s : String) : String := ⟨s.data.map Char.toLower⟩

/-- Python `str.strip()`: drop whitespace from both ends. -/
def strTrim (s : String) : String :=
  ⟨((s.data.dropWhile Char.isWhitespace).reverse.dropWhile Char.isWhitespace).reverse⟩

/-- Python `needle in hay` on strings: contiguous substring test. -/
def strContains (needle hay : String) : Bool := decide (needle.data <:+: hay.data)

/-- Python `s.startswith(pre)`. -/
def strStarts (pre s : String) : Bool := decide (pre.data <+: s.data)

/-! ### Sorting (Python `sorted`)

`sortStrings` is an insertion sort over the executable comparison `strLe`;
it models Python `sorted` on a list of distinct strings.  `sortByCountDesc`
models `sorted(items, key=lambda x: -x[1])`; CPython's sort is stable on
ties, which an insertion sort need not reproduce, but no property proved
below depends on the relative order of tied items.
-/

def insertSorted (a : String) : List String → List String
  | [] => [a]
  | b :: l => if strLe a b then a :: b :: l else b :: insertSorted a l

def sortStrings : List String → List String
  | [] => []
  | a :: l => insertSorted a (sortStrings l)

/-- Descending sort of `(key, count)` items by count, Python
`sorted(items, key=lambda x: -x[1])`. -/
def insertByCount (x : String × Nat) : List (String × Nat) → List (String × Nat)
  | [] => [x]
  | y :: l => if y.2 ≤ x.2 then x :: y :: l else y :: insertByCount x l

def sortByCountDesc : List (String × Nat) → List (String × Nat)
  | [] => []
  | x :: l => insertByCount x (sortByCountDesc l)

/-! ### Association-list dictionaries

CPython dictionaries preserve insertion order; the embedding models them as
association lists with duplicate-free keys.  `mupd m k f d` is the
`defaultdict` access pattern `m[k] = f(m[k])` with default value `d`: the
first entry with key `k` is updated in place, and a missing key is appended
at the end with value `f d`, exactly matching dict insertion order. -/

def mget {κ ν : Type} [DecidableEq κ] : List (κ × ν) → κ → ν → ν
  | [], _, d => d
  | kv :: rest, k, d => if k = kv.1 then kv.2 else mget rest k d

def mupd {κ ν : Type} [DecidableEq κ] : List (κ × ν) → κ → (ν → ν) → ν → List (κ × ν)
  | [], k, f, d => [(k, f d)]
  | kv :: rest, k, f, d =>
    if k = kv.1 then (kv.1, f kv.2) :: rest else kv :: mupd rest k f d

/-- The keys of a dictionary, in insertion order. -/
def keysOf {κ ν : Type} (m : List (κ × ν)) : List κ := m.map (·.1)

/-- Sum of `g` over the values of a dictionary. -/
def sumBy {κ ν : Type} (g : ν → Nat) (m : List (κ × ν)) : Nat :=
  (m.map (fun kv => g kv.2)).sum

/-- Python `min(keys)`; the script only calls it on non-empty key sets. -/
def minKey : List String → String
  | [] => ""
  | k :: ks => ks.foldl (fun m x => if strLt x m then x else m) k

/-- Python `max(keys)`; the script only calls it on non-empty key sets. -/
def maxKey : List String → String
  | [] => ""
  | k :: ks => ks.foldl (fun m x => if strLt m x then x else m) k

/-! ### The record model and the extractors

A raw record is a Python dict with optional fields.  A field value is
either absent/`None` (both are falsy and behave identically in
`extract_date`), a number, or a string.  Numeric timestamps are modelled as
integers.  String fields that the script reads with a plain string default
(`id`, `author`, `subreddit`, `title`, `selftext`, `body`) are modelled as
`String`, with `""` standing for an absent field — the script treats absent
and empty identically for them. -/

inductive PyVal where
  | null
  | num (n : Int)
  | str (s : String)
deriving DecidableEq

/-- Python truthiness of a field value: `None`, `0` and `""` are falsy. -/
def truthy : PyVal → Bool
  | .null => false
  | .num n => decide (n ≠ 0)
  | .str s => decide (s ≠ "")

/-- Python `a or b`: `a` if truthy, otherwise `b` (even when `b` is falsy). -/
def pyOr (a b : PyVal) : PyVal := if truthy a then a else b

/-- A normalized record as produced by `load_data` (the `data` payload of a
wrapped record, or the flat record itself). -/
structure Post where
  id : String := ""
  author : String := ""
  subreddit : String := ""
  created_utc : PyVal := .null
  created : PyVal := .null
  dateVal : PyVal := .null
  title : String := ""
  selftext : String := ""
  body : String := ""
deriving DecidableEq

/-! #### Epoch seconds to a calendar date

`datetime.fromtimestamp(ts).strftime(chr(37) ++ "Y-...")` formats the
timestamp as `YYYY-MM-DD` in the host's local timezone; the embedding takes
the host timezone to be UTC.  The days-to-civil conversion is the standard
proleptic-Gregorian algorithm; all divisions are floor divisions on
non-negative operands after the era split. -/

def civilFromDays (z0 : Int) : Int × Int × Int :=
  let z := z0 + 719468
  let era := Int.fdiv z 146097
  let doe := z - era * 146097
  let yoe := Int.fdiv (doe - Int.fdiv doe 1460 + Int.fdiv doe 36524 - Int.fdiv doe 146096) 365
  let y := yoe + era * 400
  let doy := doe - (365 * yoe + Int.fdiv yoe 4 - Int.fdiv yoe 100)
  let mp := Int.fdiv (5 * doy + 2) 153
  let d := doy - Int.fdiv (153 * mp + 2) 5 + 1
  let m := if mp < 10 then mp + 3 else mp - 9
  (if m ≤ 2 then y + 1 else y, m, d)

def pad2 (n : Int) : String := if n < 10 then "0" ++ toString n else toString n

def pad4 (n : Int) : String :=
  if n < 10 then "000" ++ toString n
  else if n < 100 then "00" ++ toString n
  else if n < 1000 then "0" ++ toString n
  else toString n

/-- `datetime.fromtimestamp(ts).strftime` with format year-month-day,
with the local timezone taken to be UTC. -/
def epochToDate (ts : Int) : String :=
  let cd := civilFromDays (Int.fdiv ts 86400)
  pad4 cd.1 ++ "-" ++ pad2 cd.2.1 ++ "-" ++ pad2 cd.2.2

/-- `extract_date(post)`: the `or`-chain over `created_utc`, `created` and
`date` (the last with default `""`, so an absent `date` key behaves as the
empty string, which is what `.null` also produces below), then a numeric
value is formatted as a calendar date and a string value is truncated to 10
characters when at least that long. -/
def extract_date (p : Post) : String :=
  let created := pyOr p.created_utc (pyOr p.created p.dateVal)
  match created with
  | .num n => epochToDate n
  | .str s => if 10 ≤ s.length then s.take 10 else s
  | .null => ""

/-- `get_full_text(post)`: title, selftext and body joined by single spaces,
then stripped. -/
def get_full_text (p : Post) : String :=
  strTrim (p.title ++ " " ++ p.selftext ++ " " ++ p.body)

/-! ### Sentiment stage (`compute_sentiment`)

The VADER scorer is an external collaborator: it is passed in as a function
`score : String → ℚ` standing for `analyzer.polarity_scores(text)["compound"]`.
-/

structure SentDist where
  positive : Nat
  negative : Nat
  neutral : Nat
deriving DecidableEq

structure DateCounts where
  positive : Nat
  negative : Nat
  neutral : Nat
  total : Nat
deriving DecidableEq

structure PostSentiment where
  id : String
  sentiment : String
  score : ℚ
deriving DecidableEq

structure TimelineEntry where
  date : String
  positive : Nat
  negative : Nat
  neutral : Nat
  total : Nat
deriving DecidableEq

structure SentimentResult where
  distribution : SentDist
  timeline : List TimelineEntry
  post_sentiments : List PostSentiment
deriving DecidableEq

/-- The three-way thresholding of the compound score. -/
def classify (compound : ℚ) : String :=
  if compound ≥ 0.05 then "positive"
  else if compound ≤ -0.05 then "negative"
  else "neutral"

/-- `sentiment_distribution[sentiment] += 1`.  The label is always one of
the three keys; the final else-branch is unreachable in the script. -/
def bumpDist (lbl : String) (d : SentDist) : SentDist :=
  if lbl = "positive" then { d with positive := d.positive + 1 }
  else if lbl = "negative" then { d with negative := d.negative + 1 }
  else if lbl = "neutral" then { d with neutral := d.neutral + 1 }
  else d

/-- `sentiment_by_date[date][sentiment] += 1`. -/
def bumpLabel (lbl : String) (c : DateCounts) : DateCounts :=
  if lbl = "positive" then { c with positive := c.positive + 1 }
  else if lbl = "negative" then { c with negative := c.negative + 1 }
  else if lbl = "neutral" then { c with neutral := c.neutral + 1 }
  else c

/-- `sentiment_by_date[date]["total"] += 1`. -/
def bumpTotal (c : DateCounts) : DateCounts := { c with total := c.total + 1 }

structure SentState where
  dist : SentDist
  byDate : List (String × DateCounts)
  posts : List PostSentiment

/-- One iteration of the `for i, post in enumerate(data)` loop: an empty
text appends a neutral/0 record and `continue`s; otherwise the scorer runs,
the distribution is bumped, and the per-date counters are bumped only when
the extracted date is truthy. -/
def sentStep (score : String → ℚ) (st : SentState) (p : Post) : SentState :=
  let text := get_full_text p
  if text = "" then
    { st with posts := st.posts ++ [{ id := p.id, sentiment := "neutral", score := 0 }] }
  else
    let compound := score text
    let sentiment := classify compound
    let dist := bumpDist sentiment st.dist
    let date := extract_date p
    let byDate :=
      if date = "" then st.byDate
      else mupd st.byDate date (fun c => bumpTotal (bumpLabel sentiment c)) ⟨0, 0, 0, 0⟩
    { dist := dist, byDate := byDate
      posts := st.posts ++ [{ id := p.id, sentiment := sentiment, score := compound }] }

def sentInit : SentState := ⟨⟨0, 0, 0⟩, [], []⟩

/-- `compute_sentiment(data)` (given that VADER is available). -/
def compute_sentiment (score : String → ℚ) (data : List Post) : SentimentResult :=
  let st := data.foldl (sentStep score) sentInit
  { distribution := st.dist
    timeline := (sortStrings (keysOf st.byDate)).map fun d =>
      let c := mget st.byDate d ⟨0, 0, 0, 0⟩
      { date := d, positive := c.positive, negative := c.negative
        neutral := c.neutral, total := c.total }
    post_sentiments := st.posts }

/-- The per-post sentiment record, as appended by one loop iteration. -/
def psRec (score : String → ℚ) (p : Post) : PostSentiment :=
  let text := get_full_text p
  if text = "" then { id := p.id, sentiment := "neutral", score := 0 }
  else { id := p.id, sentiment := classify (score text), score := score text }

/-- The number of classified posts recorded in the global distribution. -/
def distSum (d : SentDist) : Nat := d.positive + d.negative + d.neutral

/-! ### Topic stage (`compute_topics`)

The vectorizer and the LDA fit are external collaborators.  Their combined
output — the ranked `(term, weight)` list of each topic, i.e. lines 179 to
184 of the script applied to `lda.components_` — enters the embedding as
`comps : List (List (String × ℚ))`.  The script then names the topics
`Topic 1`, `Topic 2`, … and computes the keyword-based evolution itself;
that part is embedded in full. -/

structure Topic where
  id : Nat
  name : String
  words : List (String × ℚ)
deriving DecidableEq

structure EvoEntry where
  date : String
  counts : List (String × Nat)
deriving DecidableEq

structure TopicsResult where
  topics : List Topic
  evolution : List EvoEntry
deriving DecidableEq

def topicName (i : Nat) : String := "Topic " ++ toString (i + 1)

def mkTopics (comps : List (List (String × ℚ))) : List Topic :=
  comps.enum.map fun ic => { id := ic.1 + 1, name := topicName ic.1, words := ic.2 }

/-- `any(term in text_lower for term in top_terms)` over the top three
terms of a topic. -/
def topicMatches (t : Topic) (textLower : String) : Bool :=
  (t.words.take 3).any fun w => strContains w.1 textLower

/-- The inner default of the `topic_by_date` defaultdict: all topic names
mapped to zero. -/
def defaultTopicCounts (n_topics : Nat) : List (String × Nat) :=
  (List.range n_topics).map fun i => (topicName i, 0)

/-- `topic_by_date[date][name] += 1`.  In the script a name absent from the
inner dict would raise `KeyError`; the script only ever uses the canonical
names present in the default, where this embedding and the script agree. -/
def bumpTopic (name : String) (counts : List (String × Nat)) : List (String × Nat) :=
  counts.map fun kv => if kv.1 = name then (kv.1, kv.2 + 1) else kv

/-- One iteration of the evolution loop over posts. -/
def evoStep (n_topics : Nat) (topics : List Topic)
    (m : List (String × List (String × Nat))) (p : Post) :
    List (String × List (String × Nat)) :=
  let text := get_full_text p
  let date := extract_date p
  if text = "" ∨ date = "" then m
  else
    topics.foldl (fun m t =>
      if topicMatches t (strLower text) then
        mupd m date (bumpTopic t.name) (defaultTopicCounts n_topics)
      else m) m

def topic_evolution (n_topics : Nat) (topics : List Topic) (data : List Post) :
    List EvoEntry :=
  let m := data.foldl (evoStep n_topics topics) []
  (sortStrings (keysOf m)).map fun d =>
    { date := d, counts := mget m d (defaultTopicCounts n_topics) }

/-- `compute_topics` after a successful vectorization and LDA fit. -/
def compute_topics (n_topics : Nat) (comps : List (List (String × ℚ)))
    (data : List Post) : TopicsResult :=
  let topics := mkTopics comps
  { topics := topics, evolution := topic_evolution n_topics topics data }

/-- The filtered corpus handed to the vectorizer:
`[t for t in texts if t and len(t) > 20]`. -/
def topicsInputTexts (data : List Post) : List String :=
  (data.map get_full_text).filter fun t => decide (t ≠ "" ∧ 20 < t.length)

/-- `compute_topics` including its sklearn guard and the `try/except` around
vectorization: `fitLda` returns `none` when the vectorizer raises. -/
def compute_topicsOpt (sklearn : Bool)
    (fitLda : List String → Option (List (List (String × ℚ))))
    (data : List Post) : Option TopicsResult :=
  if sklearn then
    match fitLda (topicsInputTexts data) with
    | none => none
    | some comps => some (compute_topics 5 comps data)
  else none

/-! ### Network stage (`compute_network`) -/

structure NetworkNode where
  id : String
  name : String
  val : Nat
  posts : Nat
deriving DecidableEq

structure NetworkLink where
  source : String
  target : String
  value : Nat
deriving DecidableEq

structure NetworkResult where
  nodes : List NetworkNode
  links : List NetworkLink
deriving DecidableEq

/-- The two accumulator dicts of the first loop.  The per-bucket author set
is a duplicate-free list in insertion order (CPython set iteration order is
hash-dependent; no property below depends on it). -/
structure NetState where
  author_subreddit_date : List ((String × String) × List String)
  author_post_count : List (String × Nat)

def netStep (st : NetState) (p : Post) : NetState :=
  let author := p.author
  let subreddit := p.subreddit
  let date := extract_date p
  if author ≠ "" ∧ author ≠ "[deleted]" ∧ subreddit ≠ "" ∧ date ≠ "" then
    { author_subreddit_date :=
        mupd st.author_subreddit_date (subreddit, date)
          (fun s => if author ∈ s then s else s ++ [author]) []
      author_post_count := mupd st.author_post_count author (· + 1) 0 }
  else st

/-- All index pairs `i < j` of a list, in the order of the double loop. -/
def allPairs {α : Type} : List α → List (α × α)
  | [] => []
  | a :: rest => (rest.map fun b => (a, b)) ++ allPairs rest

/-- `tuple(sorted([x, y]))` for two strings. -/
def sortPair (a b : String) : String × String :=
  if strLe a b then (a, b) else (b, a)

/-- The `edge_weights` defaultdict after the pairwise loop. -/
def edge_weights (buckets : List ((String × String) × List String)) :
    List ((String × String) × Nat) :=
  buckets.foldl (fun ew bucket =>
    (allPairs bucket.2).foldl
      (fun ew pr => mupd ew (sortPair pr.1 pr.2) (· + 1) 0) ew) []

def compute_network (max_nodes : Nat) (data : List Post) : NetworkResult :=
  let st := data.foldl netStep ⟨[], []⟩
  let ew := edge_weights st.author_subreddit_date
  let top_authors := (sortByCountDesc st.author_post_count).take max_nodes
  let top_author_ids := top_authors.map (·.1)
  let nodes := top_authors.map fun ac =>
    ({ id := ac.1, name := ac.1, val := ac.2, posts := ac.2 } : NetworkNode)
  let links := (ew.filter fun e : (String × String) × Nat =>
      decide (e.1.1 ∈ top_author_ids ∧ e.1.2 ∈ top_author_ids ∧ 2 ≤ e.2)).map fun e =>
    ({ source := e.1.1, target := e.1.2, value := e.2 } : NetworkLink)
  { nodes := nodes, links := links }

/-! ### Overview stage (`compute_overview`) -/

structure OverviewStats where
  totalPosts : Nat
  uniqueAuthors : Nat
  uniqueSubreddits : Nat
  dateStart : String
  dateEnd : String
deriving DecidableEq

structure OverviewResult where
  stats : OverviewStats
  timeline : List (String × Nat)
  topAuthors : List (String × Nat)
  topSubreddits : List (String × Nat)
deriving DecidableEq

structure OvState where
  posts_by_date : List (String × Nat)
  author_post_count : List (String × Nat)
  subreddit_count : List (String × Nat)

def ovStep (st : OvState) (p : Post) : OvState :=
  let date := extract_date p
  let author := p.author
  let subreddit := p.subreddit
  { posts_by_date :=
      if date ≠ "" then mupd st.posts_by_date date (· + 1) 0 else st.posts_by_date
    author_post_count :=
      if author ≠ "" ∧ author ≠ "[deleted]" then
        mupd st.author_post_count author (· + 1) 0
      else st.author_post_count
    subreddit_count :=
      if subreddit ≠ "" then mupd st.subreddit_count subreddit (· + 1) 0
      else st.subreddit_count }

/-- The three accumulator dicts of `compute_overview`. -/
def overviewCounts (data : List Post) : OvState :=
  data.foldl ovStep ⟨[], [], []⟩

/-- `compute_overview(data)`.  `sorted(posts_by_date.items())` on a dict
with (necessarily distinct) string keys equals sorting the keys and reading
each one back. -/
def compute_overview (data : List Post) : OverviewResult :=
  let st := overviewCounts data
  { stats :=
      { totalPosts := data.length
        uniqueAuthors := st.author_post_count.length
        uniqueSubreddits := st.subreddit_count.length
        dateStart := if st.posts_by_date.isEmpty then "" else minKey (keysOf st.posts_by_date)
        dateEnd := if st.posts_by_date.isEmpty then "" else maxKey (keysOf st.posts_by_date) }
    timeline := (sortStrings (keysOf st.posts_by_date)).map fun d => (d, mget st.posts_by_date d 0)
    topAuthors := (sortByCountDesc st.author_post_count).take 20
    topSubreddits := (sortByCountDesc st.subreddit_count).take 10 }

/-! ### Semantic-map stage (`compute_semantic_map`)

The TF-IDF/PCA projection and the K-Means fit are external collaborators,
passed in as `pca` (2-D coordinates per valid document) and `km` (cluster
id per valid document). -/

structure SemanticPoint where
  id : String
  x : ℚ
  y : ℚ
  cluster : Nat
  author : String
  text : String
deriving DecidableEq

structure SemanticResult where
  points : List SemanticPoint
  clusters : Nat
deriving DecidableEq

def emptyPost : Post := {}

def compute_semantic_map (pca : List String → List (ℚ × ℚ))
    (km : List String → List Nat) (n_clusters : Nat) (data : List Post) :
    Option SemanticResult :=
  let texts := data.map get_full_text
  let valid_indices := (texts.enum.filter fun it => decide (it.2 ≠ "" ∧ 20 < it.2.length)).map (·.1)
  let valid_texts := valid_indices.map fun i => texts.getD i ""
  if valid_texts.length < 10 then none
  else
    let coords := pca valid_texts
    let clusters := km valid_texts
    some
      { points := valid_indices.enum.map fun iidx =>
          let i := iidx.1
          let p := data.getD iidx.2 emptyPost
          { id := if p.id = "" then toString i else p.id
            x := (coords.getD i (0, 0)).1
            y := (coords.getD i (0, 0)).2
            cluster := clusters.getD i 0
            author := if p.author = "" then "Unknown" else p.author
            text := (valid_texts.getD i "").take 100 ++ "..." }
        clusters := n_clusters }

/-! ### Event-correlation stage (`compute_event_correlations`)

Reading `events.json` is modelled by the `events_file` parameter: `none`
when the file does not exist, `some events` otherwise.  Subscripting
`None` (`sentiment_data["timeline"]`, `topics_data["evolution"]`) raises
`TypeError` in Python; the embedding returns it as an `Except.error`.  The
2-decimal rounding of the negative-sentiment ratio is modelled as exact
rational round-half-up; Python rounds the nearest float.  `ratioNeg` is the
script's `neg_ratio` / output key `negative_sentiment_ratio`. -/

structure EventRec where
  date : String
deriving DecidableEq

structure CorrMetrics where
  volume : Nat
  ratioNeg : ℚ
  top_topics : List (String × Nat)
deriving DecidableEq

structure Correlation where
  event : EventRec
  metrics : CorrMetrics
deriving DecidableEq

def round2 (q : ℚ) : ℚ := ((Rat.floor (q * 100 + 1 / 2) : Int) : ℚ) / 100

def correlateEvent (overview_data : OverviewResult) (s : SentimentResult)
    (t : TopicsResult) (ev : EventRec) : Correlation :=
  let date := ev.date
  let vol :=
    match overview_data.timeline.find? (fun it => it.1 == date) with
    | some it => it.2
    | none => 0
  let sent :=
    match s.timeline.find? (fun e => e.date == date) with
    | some e => (e.positive, e.negative, e.neutral)
    | none => (0, 0, 0)
  let total_sent : Nat := sent.1 + sent.2.1 + sent.2.2
  let ratio : ℚ := if 0 < total_sent then (sent.2.1 : ℚ) / (total_sent : ℚ) else 0
  let day_topics :=
    match t.evolution.find? (fun e => e.date == date) with
    | some e => e.counts
    | none => []
  let sorted_topics := (sortByCountDesc (day_topics.filter fun kv => strStarts "Topic" kv.1)).take 3
  { event := ev
    metrics := { volume := vol, ratioNeg := round2 ratio, top_topics := sorted_topics } }

def compute_event_correlations (events_file : Option (List EventRec))
    (overview_data : OverviewResult) (sentiment_data : Option SentimentResult)
    (topics_data : Option TopicsResult) : Except String (Option (List Correlation)) :=
  match events_file with
  | none => .ok none
  | some events =>
    match sentiment_data with
    | none => .error "TypeError: NoneType object is not subscriptable"
    | some s =>
      match topics_data with
      | none => .error "TypeError: NoneType object is not subscriptable"
      | some t => .ok (some (events.map (correlateEvent overview_data s t)))

/-! ### Orchestrator (`main`)

`main` computes all six stage results and then persists only `overview`
and `event_correlations` (each guarded by Python truthiness: the overview
dict is always truthy; an empty correlation list is falsy and skipped).
The returned value is the list of artifact file names written, or the
uncaught exception that aborted the run. -/

def savedArtifacts (overview : OverviewResult)
    (event_correlations : Option (List Correlation)) : List String :=
  ["overview.json"] ++
    (match event_correlations with
     | some l => if l.isEmpty then [] else ["event_correlations.json"]
     | none => [])

def runMain (vader sklearn : Bool) (score : String → ℚ)
    (fitLda : List String → Option (List (List (String × ℚ))))
    (pca : List String → List (ℚ × ℚ)) (km : List String → List Nat)
    (events_file : Option (List EventRec)) (data : List Post) :
    Except String (List String) :=
  let overview := compute_overview data
  let sentiment := if vader then some (compute_sentiment score data) else none
  let topics := compute_topicsOpt sklearn fitLda data
  let network := compute_network 500 data
  let semantic_map := if sklearn then compute_semantic_map pca km 5 data else none
  match compute_event_correlations events_file overview sentiment topics with
  | .error e => .error e
  | .ok ec => .ok (savedArtifacts overview ec)

/-- Reference reading of the amended date-extraction policy: the first
truthy field among `created_utc` and `created` wins; otherwise the `date`
field value is used even when falsy (Python `or` yields its last operand). -/
def extract_date_amended (p : Post) : String :=
  let chosen :=
    if truthy p.created_utc then p.created_utc
    else if truthy p.created then p.created
    else p.dateVal
  match chosen with
  | .num n => epochToDate n
  | .str s => if 10 ≤ s.length then s.take 10 else s
  | .null => ""

/-! ### Concrete inputs used by witnesses and counterexamples -/

def pOne : Post :=
  { id := "p1", author := "a", subreddit := "s", dateVal := .str "2024-01-01", title := "hello" }

def pEmptyDate : Post := { author := "a", subreddit := "s", title := "hello" }

def pEmptyText : Post := { dateVal := .str "2024-01-05" }

def pCreatedZero : Post := { created_utc := .num 0 }

def netData : List Post :=
  [ { author := "a", subreddit := "s", dateVal := .str "2024-01-01" },
    { author := "b", subreddit := "s", dateVal := .str "2024-01-01" },
    { author := "a", subreddit := "s", dateVal := .str "2024-01-02" },
    { author := "b", subreddit := "s", dateVal := .str "2024-01-02" } ]

def evoComps : List (List (String × ℚ)) :=
  [[("apple", 1)], [("banana", 1)], [("cherry", 1)], [("dill", 1)], [("elder", 1)]]

def evoData : List Post :=
  [ { title := "Apple banana pie is great", dateVal := .str "2024-02-01" } ]

def evOne : EventRec := { date := "2024-01-01" }

/-! ### General lemmas about the embedding -/

theorem charListLt_iff (as bs : List Char) : charListLt as bs = true ↔ as < bs := by
  induction as generalizing bs with
  | nil =>
    cases bs with
    | nil =>
      simp only [charListLt, Bool.false_eq_true, false_iff]
      intro h; cases h
    | cons b bs =>
      simp only [charListLt, true_iff]
      exact List.Lex.nil
  | cons a as ih =>
    cases bs with
    | nil =>
      simp only [charListLt, Bool.false_eq_true, false_iff]
      intro h; cases h
    | cons b bs =>
      simp only [charListLt]
      by_cases hab : a < b
      · simp only [hab, if_true, true_iff]
        exact List.Lex.rel hab
      · by_cases hba : b < a
        · simp only [hab, hba, if_false, if_true, Bool.false_eq_true, false_iff]
          intro h
          cases h with
          | cons h => exact absurd hba (lt_irrefl _)
          | rel h => exact absurd hba (asymm h)
        · have heq : a = b := le_antisymm (not_lt.mp hba) (not_lt.mp hab)
          subst heq
          simp only [hab, hba, if_false, ih]
          constructor
          · intro h; exact List.Lex.cons h
          · intro h
            cases h with
            | cons h => exact h
            | rel h => exact absurd h (lt_irrefl _)

theorem strLt_iff (a b : String) : strLt a b = true ↔ a < b := by
  rw [String.lt_iff_toList_lt]
  exact charListLt_iff a.data b.data

theorem strLe_iff (a b : String) : strLe a b = true ↔ a ≤ b := by
  unfold strLe
  rw [Bool.not_eq_true', ← Bool.not_eq_true, strLt_iff]
  exact not_lt

theorem insertSorted_perm (a : String) (l : List String) :
    List.Perm (insertSorted a l) (a :: l) := by
  induction l with
  | nil => exact List.Perm.refl _
  | cons b l ih =>
    unfold insertSorted
    by_cases h : strLe a b = true
    · rw [if_pos h]
    · rw [if_neg h]
      exact (List.Perm.cons b ih).trans (List.Perm.swap a b l)

theorem sortStrings_perm (l : List String) : List.Perm (sortStrings l) l := by
  induction l with
  | nil => exact List.Perm.refl _
  | cons a l ih => exact (insertSorted_perm a _).trans (List.Perm.cons a ih)

theorem mem_sortStrings {a : String} {l : List String} :
    a ∈ sortStrings l ↔ a ∈ l := (sortStrings_perm l).mem_iff

theorem sorted_insertSorted (a : String) (l : List String)
    (h : l.Sorted (· ≤ ·)) : (insertSorted a l).Sorted (· ≤ ·) := by
  induction l with
  | nil => simp [insertSorted]
  | cons b l ih =>
    rw [List.sorted_cons] at h
    unfold insertSorted
    by_cases hab : strLe a b = true
    · rw [if_pos hab]
      rw [List.sorted_cons]
      refine ⟨?_, List.sorted_cons.mpr h⟩
      intro x hx
      rcases List.mem_cons.mp hx with rfl | hx
      · exact strLe_iff a x |>.mp hab
      · exact le_trans (strLe_iff a b |>.mp hab) (h.1 x hx)
    · rw [if_neg hab]
      rw [List.sorted_cons]
      refine ⟨?_, ih h.2⟩
      intro x hx
      have hx' : x ∈ a :: l := (insertSorted_perm a l).mem_iff.mp hx
      rcases List.mem_cons.mp hx' with rfl | hx'
      · exact le_of_not_le fun hle => hab ((strLe_iff _ _).mpr hle)
      · exact h.1 x hx'

theorem sorted_sortStrings (l : List String) :
    (sortStrings l).Sorted (· ≤ ·) := by
  induction l with
  | nil => simp [sortStrings]
  | cons a l ih => exact sorted_insertSorted a _ ih

theorem sortStrings_sorted_lt {l : List String} (h : l.Nodup) :
    (sortStrings l).Sorted (· < ·) :=
  List.Sorted.lt_of_le (sorted_sortStrings l) ((sortStrings_perm l).nodup_iff.mpr h)

theorem insertByCount_perm (x : String × Nat) (l : List (String × Nat)) :
    List.Perm (insertByCount x l) (x :: l) := by
  induction l with
  | nil => exact List.Perm.refl _
  | cons y l ih =>
    unfold insertByCount
    by_cases h : y.2 ≤ x.2
    · rw [if_pos h]
    · rw [if_neg h]
      exact (List.Perm.cons y ih).trans (List.Perm.swap x y l)

theorem sortByCountDesc_perm (l : List (String × Nat)) : List.Perm (sortByCountDesc l) l := by
  induction l with
  | nil => exact List.Perm.refl _
  | cons x l ih => exact (insertByCount_perm x _).trans (List.Perm.cons x ih)

theorem keysOf_mupd {κ ν : Type} [DecidableEq κ] (m : List (κ × ν)) (k : κ)
    (f : ν → ν) (d : ν) :
    keysOf (mupd m k f d) = if k ∈ keysOf m then keysOf m else keysOf m ++ [k] := by
  induction m with
  | nil => simp [mupd, keysOf]
  | cons kv rest ih =>
    simp only [keysOf, List.map_cons] at ih ⊢
    unfold mupd
    by_cases h : k = kv.1
    · subst h
      simp
    · rw [if_neg h]
      simp only [List.map_cons, ih, List.mem_cons]
      by_cases hmem : k ∈ List.map (fun x => x.1) rest
      · simp [hmem]
      · simp [hmem, h]

theorem mem_keysOf_mupd {κ ν : Type} [DecidableEq κ] {m : List (κ × ν)} {k k' : κ}
    {f : ν → ν} {d : ν} :
    k' ∈ keysOf (mupd m k f d) ↔ k' ∈ keysOf m ∨ k' = k := by
  rw [keysOf_mupd]
  by_cases h : k ∈ keysOf m
  · simp only [if_pos h]
    constructor
    · exact Or.inl
    · rintro (hk | rfl)
      · exact hk
      · exact h
  · simp [if_neg h, List.mem_append]

theorem nodup_keysOf_mupd {κ ν : Type} [DecidableEq κ] {m : List (κ × ν)} (k : κ)
    (f : ν → ν) (d : ν) (h : (keysOf m).Nodup) :
    (keysOf (mupd m k f d)).Nodup := by
  rw [keysOf_mupd]
  by_cases hmem : k ∈ keysOf m
  · simpa [if_pos hmem] using h
  · rw [if_neg hmem]
    refine List.nodup_append.mpr ⟨h, List.nodup_singleton k, ?_⟩
    intro a ha hb
    rw [List.mem_singleton] at hb
    subst hb
    exact hmem ha

theorem mget_mupd_self {κ ν : Type} [DecidableEq κ] (m : List (κ × ν)) (k : κ)
    (f : ν → ν) (d : ν) : mget (mupd m k f d) k d = f (mget m k d) := by
  induction m with
  | nil => simp [mupd, mget]
  | cons kv rest ih =>
    unfold mupd
    by_cases h : k = kv.1
    · simp [mget, h]
    · simp [mget, h, ih]

theorem mget_mupd_ne {κ ν : Type} [DecidableEq κ] (m : List (κ × ν)) {k k' : κ}
    (f : ν → ν) (d d' : ν) (h : k' ≠ k) :
    mget (mupd m k f d) k' d' = mget m k' d' := by
  induction m with
  | nil => simp [mupd, mget, h]
  | cons kv rest ih =>
    unfold mupd
    by_cases hk : k = kv.1
    · subst hk
      simp [mget, h]
    · by_cases hk' : k' = kv.1
      · simp [mget, hk', hk]
      · simp [mget, hk, hk', ih]

theorem vals_mupd_pres {κ ν : Type} [DecidableEq κ] {P : ν → Prop}
    {m : List (κ × ν)} {k : κ} {f : ν → ν} {d : ν}
    (hm : ∀ kv ∈ m, P kv.2) (hf : ∀ v, P v → P (f v)) (hd : P d) :
    ∀ kv ∈ mupd m k f d, P kv.2 := by
  induction m with
  | nil =>
    intro kv hkv
    simp only [mupd, List.mem_singleton] at hkv
    subst hkv
    exact hf d hd
  | cons kv0 rest ih =>
    intro kv hkv
    unfold mupd at hkv
    by_cases h : k = kv0.1
    · rw [if_pos h] at hkv
      rcases List.mem_cons.mp hkv with rfl | hkv
      · exact hf _ (hm kv0 (List.mem_cons_self _ _))
      · exact hm kv (List.mem_cons_of_mem _ hkv)
    · rw [if_neg h] at hkv
      rcases List.mem_cons.mp hkv with rfl | hkv
      · exact hm kv (List.mem_cons_self _ _)
      · exact ih (fun kv h => hm kv (List.mem_cons_of_mem _ h)) kv hkv

theorem keys_mupd_pres {κ ν : Type} [DecidableEq κ] {Q : κ → Prop}
    {m : List (κ × ν)} {k : κ} {f : ν → ν} {d : ν}
    (hm : ∀ c ∈ keysOf m, Q c) (hk : Q k) :
    ∀ c ∈ keysOf (mupd m k f d), Q c := by
  intro c hc
  rcases mem_keysOf_mupd.mp hc with hc | rfl
  · exact hm c hc
  · exact hk

theorem sumBy_mupd {κ ν : Type} [DecidableEq κ] (g : ν → Nat) (m : List (κ × ν))
    (k : κ) (f : ν → ν) (d : ν) (hf : ∀ v, g (f v) = g v + 1) (hd : g d = 0) :
    sumBy g (mupd m k f d) = sumBy g m + 1 := by
  induction m with
  | nil => simp [mupd, sumBy, hf, hd]
  | cons kv rest ih =>
    unfold mupd
    by_cases h : k = kv.1
    · simp only [if_pos h, sumBy, List.map_cons, List.sum_cons, hf]
      simp [sumBy] at ih ⊢
      omega
    · simp only [if_neg h, sumBy, List.map_cons, List.sum_cons]
      simp [sumBy] at ih ⊢
      omega

example : epochToDate 0 = "1970-01-01" := by decide

example : epochToDate 1700000000 = "2023-11-14" := by decide

example : epochToDate 1577836800 = "2020-01-01" := by decide

example : extract_date { created_utc := .num 1700000000 } = "2023-11-14" := by decide

example : extract_date { dateVal := .str "2024-03-05T12:00:00" } = "2024-03-05" := by decide

example : extract_date { dateVal := .str "2024-3-5" } = "2024-3-5" := by decide

example : extract_date {} = "" := by decide

example : get_full_text { title := "a", body := "b" } = "a  b" := by decide

example : get_full_text { selftext := " " } = "" := by decide

theorem classify_cases (c : ℚ) :
    classify c = "positive" ∨ classify c = "negative" ∨ classify c = "neutral" := by
  unfold classify
  split
  · exact Or.inl rfl
  · split
    · exact Or.inr (Or.inl rfl)
    · exact Or.inr (Or.inr rfl)

theorem mget_mem {κ ν : Type} [DecidableEq κ] {m : List (κ × ν)} {k : κ} (dft : ν)
    (h : k ∈ keysOf m) : (k, mget m k dft) ∈ m := by
  induction m with
  | nil => simp [keysOf] at h
  | cons kv rest ih =>
    by_cases hk : k = kv.1
    · subst hk
      have he : (kv.1, mget (kv :: rest) kv.1 dft) = kv := by
        show (kv.1, if kv.1 = kv.1 then kv.2 else mget rest kv.1 dft) = kv
        rw [if_pos rfl]
      rw [he]
      exact List.mem_cons_self _ _
    · have h' : k ∈ keysOf rest := by
        simp only [keysOf, List.map_cons, List.mem_cons] at h
        exact h.resolve_left hk
      have he : mget (kv :: rest) k dft = mget rest k dft := by
        show (if k = kv.1 then kv.2 else mget rest k dft) = mget rest k dft
        rw [if_neg hk]
      rw [he]
      exact List.mem_cons_of_mem _ (ih h')

theorem sum_mget_keys {κ ν : Type} [DecidableEq κ] (g : ν → Nat) (m : List (κ × ν))
    (dft : ν) (h : (keysOf m).Nodup) :
    ((keysOf m).map (fun k => g (mget m k dft))).sum = sumBy g m := by
  induction m with
  | nil => simp [keysOf, sumBy]
  | cons kv rest ih =>
    simp only [keysOf, List.map_cons, List.nodup_cons] at h ⊢
    rw [List.sum_cons]
    have h1 : g (mget (kv :: rest) kv.1 dft) = g kv.2 := by
      show g (if kv.1 = kv.1 then kv.2 else mget rest kv.1 dft) = g kv.2
      rw [if_pos rfl]
    have h2 : ∀ k ∈ List.map (fun x => x.1) rest,
        g (mget (kv :: rest) k dft) = g (mget rest k dft) := by
      intro k hk
      have hne : k ≠ kv.1 := fun he => h.1 (he ▸ hk)
      show g (if k = kv.1 then kv.2 else mget rest k dft) = g (mget rest k dft)
      rw [if_neg hne]
    rw [h1, List.map_congr_left h2]
    have := ih h.2
    simp only [keysOf] at this
    rw [this]
    simp [sumBy]

/-! ### Sentiment-stage lemmas -/

theorem sentStep_posts (score : String → ℚ) (st : SentState) (p : Post) :
    (sentStep score st p).posts = st.posts ++ [psRec score p] := by
  by_cases ht : get_full_text p = "" <;> simp [sentStep, psRec, ht]

theorem sentStep_dist (score : String → ℚ) (st : SentState) (p : Post) :
    (sentStep score st p).dist =
      if get_full_text p = "" then st.dist
      else bumpDist (classify (score (get_full_text p))) st.dist := by
  by_cases ht : get_full_text p = "" <;> simp [sentStep, ht]

theorem sentStep_byDate (score : String → ℚ) (st : SentState) (p : Post) :
    (sentStep score st p).byDate =
      if get_full_text p = "" ∨ extract_date p = "" then st.byDate
      else
        mupd st.byDate (extract_date p)
          (fun c => bumpTotal (bumpLabel (classify (score (get_full_text p))) c))
          ⟨0, 0, 0, 0⟩ := by
  by_cases ht : get_full_text p = ""
  · simp [sentStep, ht]
  · by_cases hd : extract_date p = "" <;> simp [sentStep, ht, hd]

theorem bumpLabel_total (lbl : String) (c : DateCounts) :
    (bumpLabel lbl c).total = c.total := by
  unfold bumpLabel
  split
  · rfl
  · split
    · rfl
    · split
      · rfl
      · rfl

theorem bump_inv (lbl : String) (c : DateCounts)
    (hl : lbl = "positive" ∨ lbl = "negative" ∨ lbl = "neutral")
    (h : c.positive + c.negative + c.neutral = c.total) :
    (bumpTotal (bumpLabel lbl c)).positive + (bumpTotal (bumpLabel lbl c)).negative +
      (bumpTotal (bumpLabel lbl c)).neutral = (bumpTotal (bumpLabel lbl c)).total := by
  rcases hl with rfl | rfl | rfl
  · unfold bumpLabel bumpTotal
    rw [if_pos rfl]
    show c.positive + 1 + c.negative + c.neutral = c.total + 1
    omega
  · unfold bumpLabel bumpTotal
    rw [if_neg (by decide : ¬ ("negative" : String) = "positive"), if_pos rfl]
    show c.positive + (c.negative + 1) + c.neutral = c.total + 1
    omega
  · unfold bumpLabel bumpTotal
    rw [if_neg (by decide : ¬ ("neutral" : String) = "positive"),
        if_neg (by decide : ¬ ("neutral" : String) = "negative"), if_pos rfl]
    show c.positive + c.negative + (c.neutral + 1) = c.total + 1
    omega

theorem bumpDist_sum (lbl : String) (d : SentDist)
    (h : lbl = "positive" ∨ lbl = "negative" ∨ lbl = "neutral") :
    distSum (bumpDist lbl d) = distSum d + 1 := by
  rcases h with rfl | rfl | rfl
  · unfold bumpDist distSum
    rw [if_pos rfl]
    show d.positive + 1 + d.negative + d.neutral = d.positive + d.negative + d.neutral + 1
    omega
  · unfold bumpDist distSum
    rw [if_neg (by decide : ¬ ("negative" : String) = "positive"), if_pos rfl]
    show d.positive + (d.negative + 1) + d.neutral = d.positive + d.negative + d.neutral + 1
    omega
  · unfold bumpDist distSum
    rw [if_neg (by decide : ¬ ("neutral" : String) = "positive"),
        if_neg (by decide : ¬ ("neutral" : String) = "negative"), if_pos rfl]
    show d.positive + d.negative + (d.neutral + 1) = d.positive + d.negative + d.neutral + 1
    omega

theorem sent_foldl_posts (score : String → ℚ) (data : List Post) :
    ∀ st : SentState,
      (data.foldl (sentStep score) st).posts = st.posts ++ data.map (psRec score) := by
  induction data with
  | nil => intro st; simp
  | cons p data ih =>
    intro st
    rw [List.foldl_cons, ih, sentStep_posts]
    simp

theorem sent_dist_sum (score : String → ℚ) (data : List Post) :
    ∀ st : SentState,
      distSum (data.foldl (sentStep score) st).dist
        = distSum st.dist + data.countP (fun p => decide (get_full_text p ≠ "")) := by
  induction data with
  | nil => intro st; simp
  | cons p data ih =>
    intro st
    rw [List.foldl_cons, ih, List.countP_cons, sentStep_dist]
    by_cases ht : get_full_text p = ""
    · rw [if_pos ht]
      simp [ht]
    · rw [if_neg ht, bumpDist_sum _ _ (classify_cases _),
        if_pos (decide_eq_true ht)]
      omega

theorem sent_byDate_inv (score : String → ℚ) (data : List Post) :
    ∀ st : SentState,
      (∀ kv ∈ st.byDate, kv.2.positive + kv.2.negative + kv.2.neutral = kv.2.total) →
      ∀ kv ∈ (data.foldl (sentStep score) st).byDate,
        kv.2.positive + kv.2.negative + kv.2.neutral = kv.2.total := by
  induction data with
  | nil => intro st h; exact h
  | cons p data ih =>
    intro st h
    rw [List.foldl_cons]
    refine ih _ ?_
    rw [sentStep_byDate]
    by_cases hc : get_full_text p = "" ∨ extract_date p = ""
    · rw [if_pos hc]
      exact h
    · rw [if_neg hc]
      exact vals_mupd_pres h (fun v hv => bump_inv _ v (classify_cases _) hv) rfl

theorem sent_byDate_nodup (score : String → ℚ) (data : List Post) :
    ∀ st : SentState, (keysOf st.byDate).Nodup →
      (keysOf (data.foldl (sentStep score) st).byDate).Nodup := by
  induction data with
  | nil => intro st h; exact h
  | cons p data ih =>
    intro st h
    rw [List.foldl_cons]
    refine ih _ ?_
    rw [sentStep_byDate]
    by_cases hc : get_full_text p = "" ∨ extract_date p = ""
    · rw [if_pos hc]
      exact h
    · rw [if_neg hc]
      exact nodup_keysOf_mupd _ _ _ h

theorem sent_byDate_keys_ne (score : String → ℚ) (data : List Post) :
    ∀ st : SentState, (∀ k ∈ keysOf st.byDate, k ≠ "") →
      ∀ k ∈ keysOf (data.foldl (sentStep score) st).byDate, k ≠ "" := by
  induction data with
  | nil => intro st h; exact h
  | cons p data ih =>
    intro st h
    rw [List.foldl_cons]
    refine ih _ ?_
    rw [sentStep_byDate]
    by_cases hc : get_full_text p = "" ∨ extract_date p = ""
    · rw [if_pos hc]
      exact h
    · rw [if_neg hc]
      exact keys_mupd_pres h (fun he => hc (Or.inr he))

theorem sent_byDate_sum (score : String → ℚ) (data : List Post) :
    ∀ st : SentState,
      sumBy DateCounts.total (data.foldl (sentStep score) st).byDate
        = sumBy DateCounts.total st.byDate
          + data.countP (fun p => decide (get_full_text p ≠ "" ∧ extract_date p ≠ "")) := by
  induction data with
  | nil => intro st; simp
  | cons p data ih =>
    intro st
    rw [List.foldl_cons, ih, List.countP_cons, sentStep_byDate]
    by_cases hc : get_full_text p = "" ∨ extract_date p = ""
    · rw [if_pos hc]
      have : decide (get_full_text p ≠ "" ∧ extract_date p ≠ "") = false := by
        rcases hc with hc | hc <;> simp [hc]
      rw [this]
      simp
    · rw [if_neg hc]
      push_neg at hc
      rw [sumBy_mupd DateCounts.total st.byDate (extract_date p) _ ⟨0, 0, 0, 0⟩
          (fun v => by
            show (bumpTotal (bumpLabel (classify (score (get_full_text p))) v)).total = v.total + 1
            show (bumpLabel (classify (score (get_full_text p))) v).total + 1 = v.total + 1
            rw [bumpLabel_total]) rfl,
        if_pos (decide_eq_true ⟨hc.1, hc.2⟩)]
      omega

theorem sentStep_byDate_mem (score : String → ℚ) (st : SentState) (p : Post) (d : String) :
    d ∈ keysOf (sentStep score st p).byDate ↔
      d ∈ keysOf st.byDate ∨
        (get_full_text p ≠ "" ∧ extract_date p ≠ "" ∧ d = extract_date p) := by
  rw [sentStep_byDate]
  by_cases hc : get_full_text p = "" ∨ extract_date p = ""
  · rw [if_pos hc]
    constructor
    · exact Or.inl
    · rintro (h | ⟨h1, h2, rfl⟩)
      · exact h
      · rcases hc with hc | hc
        · exact absurd hc h1
        · exact absurd hc h2
  · rw [if_neg hc]
    push_neg at hc
    rw [mem_keysOf_mupd]
    constructor
    · rintro (h | rfl)
      · exact Or.inl h
      · exact Or.inr ⟨hc.1, hc.2, rfl⟩
    · rintro (h | ⟨h1, h2, rfl⟩)
      · exact Or.inl h
      · exact Or.inr rfl

theorem sent_byDate_mem (score : String → ℚ) (data : List Post) :
    ∀ (st : SentState) (d : String),
      d ∈ keysOf (data.foldl (sentStep score) st).byDate ↔
        d ∈ keysOf st.byDate ∨
          ∃ p ∈ data, get_full_text p ≠ "" ∧ extract_date p ≠ "" ∧ d = extract_date p := by
  induction data with
  | nil => intro st d; simp
  | cons p data ih =>
    intro st d
    rw [List.foldl_cons, ih, sentStep_byDate_mem]
    constructor
    · rintro ((h | h) | h)
      · exact Or.inl h
      · exact Or.inr ⟨p, List.mem_cons_self _ _, h⟩
      · obtain ⟨q, hq, hq2⟩ := h
        exact Or.inr ⟨q, List.mem_cons_of_mem _ hq, hq2⟩
    · rintro (h | ⟨q, hq, hq2⟩)
      · exact Or.inl (Or.inl h)
      · rcases List.mem_cons.mp hq with rfl | hq
        · exact Or.inl (Or.inr hq2)
        · exact Or.inr ⟨q, hq, hq2⟩

theorem sent_byDate_total (score : String → ℚ) (data : List Post) (d : String)
    (hd : d ≠ "") :
    ∀ st : SentState,
      (mget (data.foldl (sentStep score) st).byDate d ⟨0, 0, 0, 0⟩).total
        = (mget st.byDate d ⟨0, 0, 0, 0⟩).total
          + data.countP (fun p => decide (get_full_text p ≠ "" ∧ extract_date p = d)) := by
  induction data with
  | nil => intro st; simp
  | cons p data ih =>
    intro st
    rw [List.foldl_cons, ih, List.countP_cons, sentStep_byDate]
    by_cases hc : get_full_text p = "" ∨ extract_date p = ""
    · rw [if_pos hc]
      have : decide (get_full_text p ≠ "" ∧ extract_date p = d) = false := by
        rcases hc with hc | hc
        · simp [hc]
        · have : ¬ extract_date p = d := fun he => hd (he ▸ hc)
          simp [this]
      rw [this]
      simp
    · rw [if_neg hc]
      push_neg at hc
      by_cases hpd : extract_date p = d
      · subst hpd
        rw [mget_mupd_self]
        have hbump :
            (bumpTotal (bumpLabel (classify (score (get_full_text p)))
              (mget st.byDate (extract_date p) ⟨0, 0, 0, 0⟩))).total
              = (mget st.byDate (extract_date p) ⟨0, 0, 0, 0⟩).total + 1 := by
          show (bumpLabel (classify (score (get_full_text p)))
            (mget st.byDate (extract_date p) ⟨0, 0, 0, 0⟩)).total + 1 = _
          rw [bumpLabel_total]
        rw [hbump, if_pos (decide_eq_true ⟨hc.1, rfl⟩)]
        omega
      · rw [mget_mupd_ne _ _ _ _ (fun he => hpd he.symm)]
        have : decide (get_full_text p ≠ "" ∧ extract_date p = d) = false := by
          simp [hpd]
        rw [this]
        simp

theorem psRec_id (score : String → ℚ) (p : Post) : (psRec score p).id = p.id := by
  by_cases h : get_full_text p = "" <;> simp [psRec, h]

theorem sent_timeline_dates (score : String → ℚ) (data : List Post) :
    (compute_sentiment score data).timeline.map (fun e => e.date)
      = sortStrings (keysOf (data.foldl (sentStep score) sentInit).byDate) := by
  simp only [compute_sentiment, List.map_map]
  exact List.map_id _

theorem sent_init_nodup (score : String → ℚ) (data : List Post) :
    (keysOf (data.foldl (sentStep score) sentInit).byDate).Nodup :=
  sent_byDate_nodup score data sentInit (by simp [sentInit, keysOf])

/-- C5: every entry of the sentiment timeline satisfies
positive + negative + neutral = total; the timeline dates are strictly
ascending (hence one entry per distinct qualifying date); and the entry
totals sum to at most the number of posts with a non-empty extracted
date. -/
theorem C5_sentiment_timeline_invariants (score : String → ℚ) (data : List Post) :
    (compute_sentiment score data).timeline.Forall
        (fun e => e.positive + e.negative + e.neutral = e.total) ∧
    ((compute_sentiment score data).timeline.map (fun e => e.date)).Sorted (· < ·) ∧
    ((compute_sentiment score data).timeline.map (fun e => e.total)).sum
      ≤ data.countP (fun p => decide (extract_date p ≠ "")) := by
  have hnd := sent_init_nodup score data
  refine ⟨List.forall_iff_forall_mem.mpr ?_, ?_, ?_⟩
  · intro e he
    simp only [compute_sentiment, List.mem_map] at he
    obtain ⟨d, hd, rfl⟩ := he
    have hd' : d ∈ keysOf (data.foldl (sentStep score) sentInit).byDate :=
      mem_sortStrings.mp hd
    have hkv := mget_mem (⟨0, 0, 0, 0⟩ : DateCounts) hd'
    exact sent_byDate_inv score data sentInit (by simp [sentInit]) _ hkv
  · rw [sent_timeline_dates]
    exact sortStrings_sorted_lt hnd
  · have h1 : ((compute_sentiment score data).timeline.map (fun e => e.total)).sum
        = sumBy DateCounts.total (data.foldl (sentStep score) sentInit).byDate := by
      simp only [compute_sentiment, List.map_map]
      rw [List.Perm.sum_eq ((sortStrings_perm _).map _)]
      show ((keysOf (data.foldl (sentStep score) sentInit).byDate).map
          (fun k => DateCounts.total
            (mget (data.foldl (sentStep score) sentInit).byDate k ⟨0, 0, 0, 0⟩))).sum
        = sumBy DateCounts.total (data.foldl (sentStep score) sentInit).byDate
      exact sum_mget_keys _ _ _ hnd
    rw [h1, sent_byDate_sum score data sentInit]
    have h0 : sumBy DateCounts.total sentInit.byDate = 0 := rfl
    rw [h0, Nat.zero_add]
    exact List.countP_mono_left (fun p hp hpred => by
      simp only [decide_eq_true_eq] at hpred ⊢
      exact hpred.2)

/-- C10: the sentiment stage emits exactly one per-post record per
normalized record, in input order (so the emitted ids are exactly the input
ids in order, and an empty-text post yields a neutral/0 record), while the
global distribution counts exactly the posts with non-empty combined
text. -/
theorem C10_post_sentiments_shape (score : String → ℚ) (data : List Post) :
    (compute_sentiment score data).post_sentiments = data.map (psRec score) ∧
    (compute_sentiment score data).post_sentiments.map (fun r => r.id) = data.map Post.id ∧
    distSum (compute_sentiment score data).distribution
      = data.countP (fun p => decide (get_full_text p ≠ "")) := by
  have hposts : (compute_sentiment score data).post_sentiments = data.map (psRec score) := by
    show (data.foldl (sentStep score) sentInit).posts = _
    rw [sent_foldl_posts]
    simp [sentInit]
  refine ⟨hposts, ?_, ?_⟩
  · rw [hposts, List.map_map]
    exact List.map_congr_left fun p hp => psRec_id score p
  · show distSum (data.foldl (sentStep score) sentInit).dist = _
    rw [sent_dist_sum]
    have h0 : distSum sentInit.dist = 0 := rfl
    rw [h0, Nat.zero_add]

/-- C4 counterexample: a post carrying the date 2024-01-05 but empty text
is not bucketed at all — the sentiment timeline stays empty, against the
claim that the per-date counters are updated regardless of text. -/
theorem C4_counterexample :
    extract_date pEmptyText = "2024-01-05" ∧ get_full_text pEmptyText = "" ∧
    (compute_sentiment (fun _ => 0) [pEmptyText]).timeline = [] := by
  refine ⟨by decide, by decide, ?_⟩
  decide

/-- C4 as amended: a date appears in the sentiment timeline exactly when it
is non-empty and some post with NON-EMPTY text carries it (empty-text posts
skip both the scorer and the date bucketing), and each timeline entry
counts exactly the non-empty-text posts of its date. -/
theorem C4_amended_bucketing (score : String → ℚ) (data : List Post) :
    (∀ d : String,
        d ∈ (compute_sentiment score data).timeline.map (fun e => e.date) ↔
          d ≠ "" ∧ ∃ p ∈ data, get_full_text p ≠ "" ∧ d = extract_date p) ∧
    (compute_sentiment score data).timeline.Forall
      (fun e => e.total = data.countP (fun p =>
          decide (get_full_text p ≠ "" ∧ extract_date p = e.date))) := by
  refine ⟨?_, List.forall_iff_forall_mem.mpr ?_⟩
  · intro d
    rw [sent_timeline_dates, mem_sortStrings, sent_byDate_mem]
    simp only [sentInit, keysOf, List.map_nil, List.not_mem_nil, false_or]
    constructor
    · rintro ⟨p, hp, h1, h2, rfl⟩
      exact ⟨h2, p, hp, h1, rfl⟩
    · rintro ⟨hd, p, hp, h1, rfl⟩
      exact ⟨p, hp, h1, hd, rfl⟩
  · intro e he
    simp only [compute_sentiment, List.mem_map] at he
    obtain ⟨d, hd, rfl⟩ := he
    have hd' : d ∈ keysOf (data.foldl (sentStep score) sentInit).byDate :=
      mem_sortStrings.mp hd
    have hne : d ≠ "" :=
      sent_byDate_keys_ne score data sentInit (by simp [sentInit, keysOf]) d hd'
    have h2 := sent_byDate_total score data d hne sentInit
    rw [show mget sentInit.byDate d ⟨0, 0, 0, 0⟩ = ⟨0, 0, 0, 0⟩ from rfl] at h2
    exact h2.trans (Nat.zero_add _)

/-! ### Date-extraction claims -/

/-- C8 counterexample: `created_utc == 0` is numeric and present, yet the
`or`-chain treats `0` as falsy and skips it, so the record yields the empty
date instead of the formatted epoch date `1970-01-01`. -/
theorem C8_counterexample :
    pCreatedZero.created_utc = PyVal.num 0 ∧
    extract_date pCreatedZero = "" ∧
    epochToDate 0 = "1970-01-01" := by
  decide

/-- C8 as amended: the priority chain takes the first TRUTHY numeric or
string field (a zero epoch or empty string falls through; the final `date`
field is used even when falsy), and every record whose `created_utc` is a
nonzero number yields the formatted calendar date. -/
theorem C8_amended_date_extraction (p : Post) :
    extract_date p = extract_date_amended p ∧
    (∀ n : Int, p.created_utc = .num n → n ≠ 0 → extract_date p = epochToDate n) := by
  constructor
  · rfl
  · intro n hn hnz
    unfold extract_date pyOr
    rw [hn]
    have ht : truthy (PyVal.num n) = true := by simp [truthy, hnz]
    rw [if_pos ht]

theorem C8_amended_witness :
    extract_date { created_utc := .num 1700000000 } = epochToDate 1700000000 ∧
    epochToDate 1700000000 = "2023-11-14" :=
  ⟨(C8_amended_date_extraction { created_utc := .num 1700000000 }).2 1700000000 rfl
      (by decide),
    by decide⟩

/-! ### Empty-date posts across the stages (C3) -/

theorem netStep_skip (st : NetState) (p : Post)
    (h : ¬ (p.author ≠ "" ∧ p.author ≠ "[deleted]" ∧ p.subreddit ≠ "" ∧ extract_date p ≠ "")) :
    netStep st p = st := by
  simp [netStep, h]

theorem ovStep_author_count (st : OvState) (p : Post) :
    (ovStep st p).author_post_count =
      if p.author ≠ "" ∧ p.author ≠ "[deleted]" then
        mupd st.author_post_count p.author (· + 1) 0
      else st.author_post_count := rfl

theorem ovStep_subreddit_count (st : OvState) (p : Post) :
    (ovStep st p).subreddit_count =
      if p.subreddit ≠ "" then mupd st.subreddit_count p.subreddit (· + 1) 0
      else st.subreddit_count := rfl

/-- C3 counterexample: a post with author `a` and subreddit `s` but an empty
extracted date contributes nothing to the network stage — its author gets no
node (and no post count there) — although the overview does count it. -/
theorem C3_counterexample :
    extract_date pEmptyDate = "" ∧ pEmptyDate.author = "a" ∧
    (compute_network 500 [pEmptyDate]).nodes = [] ∧
    (compute_overview [pEmptyDate]).stats.uniqueAuthors = 1 := by
  decide

/-! ### Network-stage lemmas (C6) -/

theorem netStep_asd (st : NetState) (p : Post) :
    (netStep st p).author_subreddit_date =
      if p.author ≠ "" ∧ p.author ≠ "[deleted]" ∧ p.subreddit ≠ "" ∧ extract_date p ≠ "" then
        mupd st.author_subreddit_date (p.subreddit, extract_date p)
          (fun s => if p.author ∈ s then s else s ++ [p.author]) []
      else st.author_subreddit_date := by
  by_cases h : p.author ≠ "" ∧ p.author ≠ "[deleted]" ∧ p.subreddit ≠ "" ∧ extract_date p ≠ ""
  · simp [netStep, h]
  · simp [netStep, h]

theorem net_buckets_nodup (data : List Post) :
    ∀ st : NetState, (∀ kv ∈ st.author_subreddit_date, kv.2.Nodup) →
      ∀ kv ∈ (data.foldl netStep st).author_subreddit_date, kv.2.Nodup := by
  induction data with
  | nil => intro st h; exact h
  | cons p data ih =>
    intro st h
    rw [List.foldl_cons]
    refine ih _ ?_
    rw [netStep_asd]
    by_cases hc : p.author ≠ "" ∧ p.author ≠ "[deleted]" ∧ p.subreddit ≠ "" ∧ extract_date p ≠ ""
    · rw [if_pos hc]
      refine vals_mupd_pres h (fun v hv => ?_) List.nodup_nil
      by_cases hm : p.author ∈ v
      · rw [if_pos hm]
        exact hv
      · rw [if_neg hm]
        refine List.nodup_append.mpr ⟨hv, List.nodup_singleton _, ?_⟩
        intro a ha hb
        rw [List.mem_singleton] at hb
        subst hb
        exact hm ha
    · rw [if_neg hc]
      exact h

theorem allPairs_ne {α : Type} :
    ∀ l : List α, l.Nodup → ∀ pr ∈ allPairs l, pr.1 ≠ pr.2 := by
  intro l
  induction l with
  | nil =>
    intro _ pr hpr
    simp [allPairs] at hpr
  | cons a rest ih =>
    intro hnd pr hpr
    rw [List.nodup_cons] at hnd
    unfold allPairs at hpr
    rw [List.mem_append] at hpr
    rcases hpr with hpr | hpr
    · obtain ⟨b, hb, rfl⟩ := List.mem_map.mp hpr
      intro he
      have he' : a = b := he
      subst he'
      exact hnd.1 hb
    · exact ih hnd.2 pr hpr

theorem sortPair_lt (a b : String) (h : a ≠ b) :
    (sortPair a b).1 < (sortPair a b).2 := by
  unfold sortPair
  by_cases hle : strLe a b = true
  · rw [if_pos hle]
    exact lt_of_le_of_ne ((strLe_iff a b).mp hle) h
  · rw [if_neg hle]
    have hnle : ¬ a ≤ b := fun hc => hle ((strLe_iff a b).mpr hc)
    exact not_le.mp hnle

theorem ew_inner_inv (prs : List (String × String)) (hprs : ∀ pr ∈ prs, pr.1 ≠ pr.2) :
    ∀ ew : List ((String × String) × Nat),
      ((∀ k ∈ keysOf ew, k.1 < k.2) ∧ (keysOf ew).Nodup) →
      ((∀ k ∈ keysOf (prs.foldl
            (fun ew pr => mupd ew (sortPair pr.1 pr.2) (· + 1) 0) ew), k.1 < k.2) ∧
        (keysOf (prs.foldl
            (fun ew pr => mupd ew (sortPair pr.1 pr.2) (· + 1) 0) ew)).Nodup) := by
  induction prs with
  | nil => intro ew h; exact h
  | cons pr prs ih =>
    intro ew h
    rw [List.foldl_cons]
    refine ih (fun q hq => hprs q (List.mem_cons_of_mem _ hq)) _ ⟨?_, ?_⟩
    · exact keys_mupd_pres h.1 (sortPair_lt pr.1 pr.2 (hprs pr (List.mem_cons_self _ _)))
    · exact nodup_keysOf_mupd _ _ _ h.2

theorem ew_fold_inv (buckets : List ((String × String) × List String)) :
    ∀ ew : List ((String × String) × Nat),
      (∀ kv ∈ buckets, kv.2.Nodup) →
      ((∀ k ∈ keysOf ew, k.1 < k.2) ∧ (keysOf ew).Nodup) →
      ((∀ k ∈ keysOf (buckets.foldl (fun ew bucket => (allPairs bucket.2).foldl
            (fun ew pr => mupd ew (sortPair pr.1 pr.2) (· + 1) 0) ew) ew), k.1 < k.2) ∧
        (keysOf (buckets.foldl (fun ew bucket => (allPairs bucket.2).foldl
            (fun ew pr => mupd ew (sortPair pr.1 pr.2) (· + 1) 0) ew) ew)).Nodup) := by
  induction buckets with
  | nil => intro ew _ h; exact h
  | cons b buckets ih =>
    intro ew hb h
    rw [List.foldl_cons]
    refine ih _ (fun kv hkv => hb kv (List.mem_cons_of_mem _ hkv)) ?_
    exact ew_inner_inv (allPairs b.2)
      (allPairs_ne b.2 (hb b (List.mem_cons_self _ _))) ew h

theorem edge_weights_inv (buckets : List ((String × String) × List String))
    (hb : ∀ kv ∈ buckets, kv.2.Nodup) :
    (∀ k ∈ keysOf (edge_weights buckets), k.1 < k.2) ∧
      (keysOf (edge_weights buckets)).Nodup := by
  unfold edge_weights
  exact ew_fold_inv buckets [] hb ⟨by simp [keysOf], by simp [keysOf]⟩

/-- C6: every emitted network link has both endpoints among the node ids,
weight at least 2, and distinct endpoints (no self-loop); and no two links
describe the same unordered author pair, because pairs are canonicalized by
lexicographic sorting before weights accumulate. -/
theorem C6_network_edge_invariants (max_nodes : Nat) (data : List Post) :
    (compute_network max_nodes data).links.Forall (fun l =>
        l.source ∈ (compute_network max_nodes data).nodes.map (fun nd => nd.id) ∧
        l.target ∈ (compute_network max_nodes data).nodes.map (fun nd => nd.id) ∧
        2 ≤ l.value ∧ l.source ≠ l.target) ∧
    (compute_network max_nodes data).links.Pairwise (fun l₁ l₂ =>
        ¬ (l₁.source = l₂.source ∧ l₁.target = l₂.target) ∧
        ¬ (l₁.source = l₂.target ∧ l₁.target = l₂.source)) := by
  have hbuckets :
      ∀ kv ∈ (data.foldl netStep (⟨[], []⟩ : NetState)).author_subreddit_date, kv.2.Nodup :=
    net_buckets_nodup data ⟨[], []⟩ (by intro kv hkv; simp at hkv)
  obtain ⟨hlt, hnd⟩ := edge_weights_inv _ hbuckets
  have hids : (compute_network max_nodes data).nodes.map (fun nd => nd.id)
      = ((sortByCountDesc
            (data.foldl netStep (⟨[], []⟩ : NetState)).author_post_count).take max_nodes).map
          (fun ac => ac.1) := by
    simp only [compute_network, List.map_map]
    rfl
  constructor
  · rw [List.forall_iff_forall_mem]
    intro l hl
    simp only [compute_network, List.mem_map, List.mem_filter] at hl
    obtain ⟨e, ⟨he, hcond⟩, rfl⟩ := hl
    rw [decide_eq_true_eq] at hcond
    obtain ⟨h1, h2, h3⟩ := hcond
    have hkey : e.1 ∈ keysOf
        (edge_weights (data.foldl netStep (⟨[], []⟩ : NetState)).author_subreddit_date) :=
      List.mem_map_of_mem _ he
    have hlt' := hlt e.1 hkey
    refine ⟨?_, ?_, h3, ne_of_lt hlt'⟩
    · rw [hids]
      exact List.mem_map.mpr h1
    · rw [hids]
      exact List.mem_map.mpr h2
  · have hpw : (edge_weights
        (data.foldl netStep (⟨[], []⟩ : NetState)).author_subreddit_date).Pairwise
          (fun x y => x.1 ≠ y.1) :=
      List.pairwise_map.mp hnd
    simp only [compute_network]
    rw [List.pairwise_map]
    refine List.Pairwise.imp_of_mem ?_ (hpw.filter _)
    intro x y hx hy hxy
    have hxe := (List.mem_filter.mp hx).1
    have hye := (List.mem_filter.mp hy).1
    have hx1 := hlt x.1 (List.mem_map_of_mem _ hxe)
    have hy1 := hlt y.1 (List.mem_map_of_mem _ hye)
    constructor
    · intro hc
      have hs : x.1.1 = y.1.1 := hc.1
      have ht2 : x.1.2 = y.1.2 := hc.2
      exact hxy (Prod.ext_iff.mpr ⟨hs, ht2⟩)
    · intro hc
      have hs : x.1.1 = y.1.2 := hc.1
      have ht2 : x.1.2 = y.1.1 := hc.2
      have hcontra : x.1.1 < x.1.1 := by
        calc x.1.1 < x.1.2 := hx1
          _ = y.1.1 := ht2
          _ < y.1.2 := hy1
          _ = x.1.1 := hs.symm
      exact lt_irrefl _ hcontra

/-! ### Topic-evolution lemmas (C7) -/

theorem mget_not_mem {κ ν : Type} [DecidableEq κ] {m : List (κ × ν)} {k : κ} (d : ν)
    (h : k ∉ keysOf m) : mget m k d = d := by
  induction m with
  | nil => rfl
  | cons kv rest ih =>
    have h1 : k ≠ kv.1 := fun he => h (by simp [keysOf, he])
    show (if k = kv.1 then kv.2 else mget rest k d) = d
    rw [if_neg h1]
    exact ih fun hm => h (by
      simp only [keysOf, List.map_cons, List.mem_cons]
      exact Or.inr (by simpa [keysOf] using hm))

theorem bumpTopic_keys (nm : String) (c : List (String × Nat)) :
    keysOf (bumpTopic nm c) = keysOf c := by
  unfold bumpTopic keysOf
  rw [List.map_map]
  apply List.map_congr_left
  intro kv _
  by_cases h : kv.1 = nm
  · simp [Function.comp, h]
  · simp [Function.comp, h]

theorem mget_bumpTopic (nm nm' : String) (c : List (String × Nat)) :
    mget (bumpTopic nm c) nm' 0
      = mget c nm' 0 + (if nm' = nm ∧ nm' ∈ keysOf c then 1 else 0) := by
  induction c with
  | nil => simp [bumpTopic, mget, keysOf]
  | cons kv rest ih =>
    show mget ((if kv.1 = nm then (kv.1, kv.2 + 1) else kv) :: bumpTopic nm rest) nm' 0 = _
    have hmem_cons : nm' ∈ keysOf (kv :: rest) ↔ nm' = kv.1 ∨ nm' ∈ keysOf rest := by
      simp [keysOf]
    by_cases h1 : kv.1 = nm
    · rw [if_pos h1]
      by_cases h2 : nm' = kv.1
      · show (if nm' = kv.1 then kv.2 + 1 else mget (bumpTopic nm rest) nm' 0) = _
        rw [if_pos h2]
        have hR : mget (kv :: rest) nm' 0 = kv.2 := by
          show (if nm' = kv.1 then kv.2 else mget rest nm' 0) = kv.2
          rw [if_pos h2]
        rw [hR, if_pos ⟨h2.trans h1, hmem_cons.mpr (Or.inl h2)⟩]
      · show (if nm' = kv.1 then kv.2 + 1 else mget (bumpTopic nm rest) nm' 0) = _
        rw [if_neg h2, ih]
        have hR : mget (kv :: rest) nm' 0 = mget rest nm' 0 := by
          show (if nm' = kv.1 then kv.2 else mget rest nm' 0) = _
          rw [if_neg h2]
        rw [hR]
        have hiff : (nm' = nm ∧ nm' ∈ keysOf rest) ↔ (nm' = nm ∧ nm' ∈ keysOf (kv :: rest)) := by
          constructor
          · rintro ⟨ha, hb⟩
            exact ⟨ha, hmem_cons.mpr (Or.inr hb)⟩
          · rintro ⟨ha, hb⟩
            exact ⟨ha, (hmem_cons.mp hb).resolve_left h2⟩
        rw [if_congr hiff rfl rfl]
    · rw [if_neg h1]
      by_cases h2 : nm' = kv.1
      · show (if nm' = kv.1 then kv.2 else mget (bumpTopic nm rest) nm' 0) = _
        rw [if_pos h2]
        have hR : mget (kv :: rest) nm' 0 = kv.2 := by
          show (if nm' = kv.1 then kv.2 else mget rest nm' 0) = kv.2
          rw [if_pos h2]
        rw [hR]
        have hcond : ¬ (nm' = nm ∧ nm' ∈ keysOf (kv :: rest)) := by
          rintro ⟨ha, _⟩
          exact h1 (h2.symm.trans ha)
        rw [if_neg hcond]
        omega
      · show (if nm' = kv.1 then kv.2 else mget (bumpTopic nm rest) nm' 0) = _
        rw [if_neg h2, ih]
        have hR : mget (kv :: rest) nm' 0 = mget rest nm' 0 := by
          show (if nm' = kv.1 then kv.2 else mget rest nm' 0) = _
          rw [if_neg h2]
        rw [hR]
        have hiff : (nm' = nm ∧ nm' ∈ keysOf rest) ↔ (nm' = nm ∧ nm' ∈ keysOf (kv :: rest)) := by
          constructor
          · rintro ⟨ha, hb⟩
            exact ⟨ha, hmem_cons.mpr (Or.inr hb)⟩
          · rintro ⟨ha, hb⟩
            exact ⟨ha, (hmem_cons.mp hb).resolve_left h2⟩
        rw [if_congr hiff rfl rfl]

theorem counts_fold_mget (tl nm : String) :
    ∀ (ts : List Topic) (c : List (String × Nat)), nm ∈ keysOf c →
      mget (ts.foldl
          (fun c t => if topicMatches t tl then bumpTopic t.name c else c) c) nm 0
        = mget c nm 0
          + ts.countP (fun t => decide (t.name = nm) && topicMatches t tl) := by
  intro ts
  induction ts with
  | nil =>
    intro c _
    simp
  | cons t ts ih =>
    intro c hc
    rw [List.foldl_cons, List.countP_cons]
    by_cases hm : topicMatches t tl = true
    · rw [if_pos hm, ih _ (by rw [bumpTopic_keys]; exact hc), mget_bumpTopic]
      by_cases hn : nm = t.name
      · rw [if_pos ⟨hn, hc⟩]
        have hb : (decide (t.name = nm) && topicMatches t tl) = true := by
          rw [hm, decide_eq_true hn.symm, Bool.and_self]
        rw [hb]
        simp
        omega
      · rw [if_neg (fun hcon => hn hcon.1)]
        have hb : (decide (t.name = nm) && topicMatches t tl) = false := by
          have : decide (t.name = nm) = false :=
            decide_eq_false (fun he => hn he.symm)
          rw [this, Bool.false_and]
        rw [hb]
        simp
    · rw [if_neg hm, ih _ hc]
      have hb : (decide (t.name = nm) && topicMatches t tl) = false := by
        rw [Bool.eq_false_iff]
        intro hcon
        exact hm (Bool.and_elim_right hcon)
      rw [hb]
      simp

theorem countP_name_unique (ts : List Topic) (t₀ : Topic) (ht : t₀ ∈ ts)
    (hnd : (ts.map (fun t => t.name)).Nodup) (tl : String) :
    ts.countP (fun t => decide (t.name = t₀.name) && topicMatches t tl)
      = if topicMatches t₀ tl then 1 else 0 := by
  induction ts with
  | nil => cases ht
  | cons t ts ih =>
    rw [List.countP_cons]
    rw [List.map_cons, List.nodup_cons] at hnd
    rcases List.mem_cons.mp ht with rfl | ht'
    · have hz : ts.countP (fun t => decide (t.name = t₀.name) && topicMatches t tl) = 0 := by
        rw [List.countP_eq_zero]
        intro q hq hcon
        have hq2 : q.name = t₀.name := of_decide_eq_true (Bool.and_elim_left hcon)
        exact hnd.1 (hq2 ▸ List.mem_map_of_mem (fun t => t.name) hq)
      rw [hz, decide_eq_true rfl, Bool.true_and, Nat.zero_add]
    · have hne : t.name ≠ t₀.name := by
        intro he
        exact hnd.1 (he ▸ List.mem_map_of_mem (fun t => t.name) ht')
      have hb : (decide (t.name = t₀.name) && topicMatches t tl) = false := by
        have : decide (t.name = t₀.name) = false := by simp [hne]
        rw [this, Bool.false_and]
      rw [hb, ih ht' hnd.2]
      simp

theorem topics_fold_inner (tl date : String) (n : Nat) :
    ∀ (ts : List Topic) (m : List (String × List (String × Nat))),
      mget (ts.foldl (fun m t => if topicMatches t tl then
            mupd m date (bumpTopic t.name) (defaultTopicCounts n) else m) m)
          date (defaultTopicCounts n)
        = ts.foldl (fun c t => if topicMatches t tl then bumpTopic t.name c else c)
            (mget m date (defaultTopicCounts n)) := by
  intro ts
  induction ts with
  | nil => intro m; rfl
  | cons t ts ih =>
    intro m
    rw [List.foldl_cons, List.foldl_cons]
    by_cases hm : topicMatches t tl = true
    · rw [if_pos hm, if_pos hm, ih, mget_mupd_self]
    · rw [if_neg hm, if_neg hm, ih]

theorem topics_fold_other (tl date : String) (n : Nat) (d : String) (hd : d ≠ date) :
    ∀ (ts : List Topic) (m : List (String × List (String × Nat))),
      mget (ts.foldl (fun m t => if topicMatches t tl then
            mupd m date (bumpTopic t.name) (defaultTopicCounts n) else m) m)
          d (defaultTopicCounts n)
        = mget m d (defaultTopicCounts n) := by
  intro ts
  induction ts with
  | nil => intro m; rfl
  | cons t ts ih =>
    intro m
    rw [List.foldl_cons]
    by_cases hm : topicMatches t tl = true
    · rw [if_pos hm, ih, mget_mupd_ne _ _ _ _ hd]
    · rw [if_neg hm, ih]

theorem topics_fold_vals (tl date : String) (n : Nat)
    (P : List (String × Nat) → Prop)
    (hP : ∀ nm c, P c → P (bumpTopic nm c))
    (hPd : P (defaultTopicCounts n)) :
    ∀ (ts : List Topic) (m : List (String × List (String × Nat))),
      (∀ kv ∈ m, P kv.2) →
      ∀ kv ∈ ts.foldl (fun m t => if topicMatches t tl then
          mupd m date (bumpTopic t.name) (defaultTopicCounts n) else m) m, P kv.2 := by
  intro ts
  induction ts with
  | nil => intro m h; exact h
  | cons t ts ih =>
    intro m h
    rw [List.foldl_cons]
    by_cases hm : topicMatches t tl = true
    · rw [if_pos hm]
      exact ih _ (vals_mupd_pres h (fun v hv => hP _ v hv) hPd)
    · rw [if_neg hm]
      exact ih _ h

theorem topics_fold_keys_nodup (tl date : String) (n : Nat) :
    ∀ (ts : List Topic) (m : List (String × List (String × Nat))),
      (keysOf m).Nodup →
      (keysOf (ts.foldl (fun m t => if topicMatches t tl then
          mupd m date (bumpTopic t.name) (defaultTopicCounts n) else m) m)).Nodup := by
  intro ts
  induction ts with
  | nil => intro m h; exact h
  | cons t ts ih =>
    intro m h
    rw [List.foldl_cons]
    by_cases hm : topicMatches t tl = true
    · rw [if_pos hm]
      exact ih _ (nodup_keysOf_mupd _ _ _ h)
    · rw [if_neg hm]
      exact ih _ h

theorem topics_fold_keys_Q (tl date : String) (n : Nat) (Q : String → Prop) (hQ : Q date) :
    ∀ (ts : List Topic) (m : List (String × List (String × Nat))),
      (∀ k ∈ keysOf m, Q k) →
      ∀ k ∈ keysOf (ts.foldl (fun m t => if topicMatches t tl then
          mupd m date (bumpTopic t.name) (defaultTopicCounts n) else m) m), Q k := by
  intro ts
  induction ts with
  | nil => intro m h; exact h
  | cons t ts ih =>
    intro m h
    rw [List.foldl_cons]
    by_cases hm : topicMatches t tl = true
    · rw [if_pos hm]
      exact ih _ (keys_mupd_pres h hQ)
    · rw [if_neg hm]
      exact ih _ h

theorem evoStep_eq (n : Nat) (topics : List Topic)
    (m : List (String × List (String × Nat))) (p : Post) :
    evoStep n topics m p =
      if get_full_text p = "" ∨ extract_date p = "" then m
      else topics.foldl (fun m t => if topicMatches t (strLower (get_full_text p)) then
          mupd m (extract_date p) (bumpTopic t.name) (defaultTopicCounts n) else m) m := rfl

theorem evoStep_vals (n : Nat) (topics : List Topic)
    (m : List (String × List (String × Nat))) (p : Post)
    (hm : ∀ kv ∈ m, keysOf kv.2 = keysOf (defaultTopicCounts n)) :
    ∀ kv ∈ evoStep n topics m p, keysOf kv.2 = keysOf (defaultTopicCounts n) := by
  rw [evoStep_eq]
  by_cases hc : get_full_text p = "" ∨ extract_date p = ""
  · rw [if_pos hc]
    exact hm
  · rw [if_neg hc]
    exact topics_fold_vals _ _ n (fun c => keysOf c = keysOf (defaultTopicCounts n))
      (fun nm c hc2 => by
        show keysOf (bumpTopic nm c) = keysOf (defaultTopicCounts n)
        rw [bumpTopic_keys]
        exact hc2) rfl topics m hm

theorem evoStep_mgetN (n : Nat) (topics : List Topic) (t₀ : Topic) (ht₀ : t₀ ∈ topics)
    (hnd : (topics.map (fun t => t.name)).Nodup)
    (hnm : t₀.name ∈ keysOf (defaultTopicCounts n))
    (m : List (String × List (String × Nat))) (p : Post) (d : String) (hd : d ≠ "")
    (hm : ∀ kv ∈ m, keysOf kv.2 = keysOf (defaultTopicCounts n)) :
    mget (mget (evoStep n topics m p) d (defaultTopicCounts n)) t₀.name 0
      = mget (mget m d (defaultTopicCounts n)) t₀.name 0
        + (if (decide (get_full_text p ≠ "" ∧ extract_date p = d)
              && topicMatches t₀ (strLower (get_full_text p))) = true then 1 else 0) := by
  rw [evoStep_eq]
  by_cases hc : get_full_text p = "" ∨ extract_date p = ""
  · rw [if_pos hc]
    have hb : decide (get_full_text p ≠ "" ∧ extract_date p = d) = false := by
      rcases hc with hc | hc
      · exact decide_eq_false (fun hcon => hcon.1 hc)
      · exact decide_eq_false (fun hcon => hd (by rw [← hcon.2]; exact hc))
    rw [hb, Bool.false_and]
    simp
  · rw [if_neg hc]
    push_neg at hc
    by_cases hpd : extract_date p = d
    · subst hpd
      rw [topics_fold_inner]
      have hkeys : t₀.name ∈ keysOf (mget m (extract_date p) (defaultTopicCounts n)) := by
        by_cases hmem : extract_date p ∈ keysOf m
        · rw [hm _ (mget_mem _ hmem)]
          exact hnm
        · rw [mget_not_mem _ hmem]
          exact hnm
      rw [counts_fold_mget _ _ topics _ hkeys,
        countP_name_unique topics t₀ ht₀ hnd]
      have hb : decide (get_full_text p ≠ "" ∧ extract_date p = extract_date p) = true :=
        decide_eq_true ⟨hc.1, rfl⟩
      rw [hb, Bool.true_and]
    · have hd2 : d ≠ extract_date p := fun he => hpd he.symm
      rw [topics_fold_other _ _ n d hd2]
      have hb : decide (get_full_text p ≠ "" ∧ extract_date p = d) = false :=
        decide_eq_false (fun hcon => hpd hcon.2)
      rw [hb, Bool.false_and]
      simp

theorem evo_keys_nodup (n : Nat) (topics : List Topic) (data : List Post) :
    ∀ m, (keysOf m).Nodup →
      (keysOf (data.foldl (evoStep n topics) m)).Nodup := by
  induction data with
  | nil => intro m h; exact h
  | cons p data ih =>
    intro m h
    rw [List.foldl_cons]
    refine ih _ ?_
    rw [evoStep_eq]
    by_cases hc : get_full_text p = "" ∨ extract_date p = ""
    · rw [if_pos hc]
      exact h
    · rw [if_neg hc]
      exact topics_fold_keys_nodup _ _ n topics m h

theorem evo_keys_ne (n : Nat) (topics : List Topic) (data : List Post) :
    ∀ m, (∀ k ∈ keysOf m, k ≠ "") →
      ∀ k ∈ keysOf (data.foldl (evoStep n topics) m), k ≠ "" := by
  induction data with
  | nil => intro m h; exact h
  | cons p data ih =>
    intro m h
    rw [List.foldl_cons]
    refine ih _ ?_
    rw [evoStep_eq]
    by_cases hc : get_full_text p = "" ∨ extract_date p = ""
    · rw [if_pos hc]
      exact h
    · rw [if_neg hc]
      push_neg at hc
      exact topics_fold_keys_Q _ _ n (fun k => k ≠ "") hc.2 topics m h

theorem evo_mget_char (n : Nat) (topics : List Topic) (t₀ : Topic) (ht₀ : t₀ ∈ topics)
    (hnd : (topics.map (fun t => t.name)).Nodup)
    (hnm : t₀.name ∈ keysOf (defaultTopicCounts n))
    (data : List Post) (d : String) (hd : d ≠ "") :
    ∀ m, (∀ kv ∈ m, keysOf kv.2 = keysOf (defaultTopicCounts n)) →
      mget (mget (data.foldl (evoStep n topics) m) d (defaultTopicCounts n)) t₀.name 0
        = mget (mget m d (defaultTopicCounts n)) t₀.name 0
          + data.countP (fun p => decide (get_full_text p ≠ "" ∧ extract_date p = d)
              && topicMatches t₀ (strLower (get_full_text p))) := by
  induction data with
  | nil =>
    intro m _
    simp
  | cons p data ih =>
    intro m hm
    rw [List.foldl_cons, List.countP_cons, ih _ (evoStep_vals n topics m p hm),
      evoStep_mgetN n topics t₀ ht₀ hnd hnm m p d hd hm]
    omega

theorem mkTopics_names (comps : List (List (String × ℚ))) :
    (mkTopics comps).map (fun t => t.name) = (List.range comps.length).map topicName := by
  unfold mkTopics
  rw [List.map_map]
  have h1 : ((fun t : Topic => t.name) ∘ fun ic : Nat × List (String × ℚ) =>
      ({ id := ic.1 + 1, name := topicName ic.1, words := ic.2 } : Topic))
      = (topicName ∘ Prod.fst) := rfl
  rw [h1, ← List.map_map, List.enum_map_fst]

theorem defaultTopicCounts_keys (n : Nat) :
    keysOf (defaultTopicCounts n) = (List.range n).map topicName := by
  unfold defaultTopicCounts keysOf
  rw [List.map_map]
  rfl

theorem mget_defaultTopicCounts (n : Nat) (nm : String) :
    mget (defaultTopicCounts n) nm 0 = 0 := by
  unfold defaultTopicCounts
  generalize List.range n = is
  induction is with
  | nil => rfl
  | cons i is ih =>
    show (if nm = topicName i then (0 : Nat)
      else mget (is.map fun j => (topicName j, 0)) nm 0) = 0
    by_cases h : nm = topicName i
    · rw [if_pos h]
    · rw [if_neg h]
      exact ih

theorem evolution_dates (n : Nat) (topics : List Topic) (data : List Post) :
    (topic_evolution n topics data).map (fun e => e.date)
      = sortStrings (keysOf (data.foldl (evoStep n topics) [])) := by
  simp only [topic_evolution, List.map_map]
  exact List.map_id _

/-- C7: with the default five topics, the evolution is sorted strictly
ascending by date, and for every emitted entry and every topic the entry's
counter for that topic equals the number of posts with non-empty text and
that date whose lowercased text contains one of the topic's top-3 terms as
a substring — the soft, overlapping (multi-match) assignment. -/
theorem C7_topic_evolution (comps : List (List (String × ℚ))) (data : List Post)
    (hlen : comps.length = 5) :
    ((compute_topics 5 comps data).evolution.map (fun e => e.date)).Sorted (· < ·) ∧
    (compute_topics 5 comps data).evolution.Forall (fun e =>
      (compute_topics 5 comps data).topics.Forall (fun t =>
        mget e.counts t.name 0
          = data.countP (fun p =>
              decide (get_full_text p ≠ "" ∧ extract_date p = e.date)
                && topicMatches t (strLower (get_full_text p))))) := by
  have hnames : (mkTopics comps).map (fun t => t.name) = (List.range 5).map topicName := by
    rw [mkTopics_names, hlen]
  have hnd : ((mkTopics comps).map (fun t => t.name)).Nodup := by
    rw [hnames]
    decide
  constructor
  · have hknd : (keysOf (data.foldl (evoStep 5 (mkTopics comps)) [])).Nodup :=
      evo_keys_nodup 5 (mkTopics comps) data [] (by simp [keysOf])
    show ((topic_evolution 5 (mkTopics comps) data).map (fun e => e.date)).Sorted (· < ·)
    rw [evolution_dates]
    exact sortStrings_sorted_lt hknd
  · rw [List.forall_iff_forall_mem]
    intro e he
    rw [List.forall_iff_forall_mem]
    intro t ht
    have he' : e ∈ topic_evolution 5 (mkTopics comps) data := he
    simp only [topic_evolution, List.mem_map] at he'
    obtain ⟨d, hd, rfl⟩ := he'
    have hdk : d ∈ keysOf (data.foldl (evoStep 5 (mkTopics comps)) []) :=
      mem_sortStrings.mp hd
    have hdne : d ≠ "" :=
      evo_keys_ne 5 (mkTopics comps) data [] (by simp [keysOf]) d hdk
    have htn : t.name ∈ keysOf (defaultTopicCounts 5) := by
      rw [defaultTopicCounts_keys, ← hnames]
      exact List.mem_map_of_mem _ ht
    have hchar := evo_mget_char 5 (mkTopics comps) t ht hnd htn data d hdne [] (by simp)
    rw [show mget ([] : List (String × List (String × Nat))) d (defaultTopicCounts 5)
          = defaultTopicCounts 5 from rfl,
      mget_defaultTopicCounts, Nat.zero_add] at hchar
    exact hchar

theorem C7_witness :
    ((compute_topics 5 evoComps evoData).evolution.map (fun e => e.date)).Sorted (· < ·) :=
  (C7_topic_evolution evoComps evoData rfl).1

/-! ### Empty-date posts: the amended C3 -/

theorem compute_overview_timeline (data : List Post) :
    (compute_overview data).timeline
      = (sortStrings (keysOf (overviewCounts data).posts_by_date)).map
          (fun d => (d, mget (overviewCounts data).posts_by_date d 0)) := rfl

theorem compute_sentiment_timeline (score : String → ℚ) (data : List Post) :
    (compute_sentiment score data).timeline
      = (sortStrings (keysOf (data.foldl (sentStep score) sentInit).byDate)).map fun d =>
          let c := mget (data.foldl (sentStep score) sentInit).byDate d ⟨0, 0, 0, 0⟩
          { date := d, positive := c.positive, negative := c.negative
            neutral := c.neutral, total := c.total } := rfl

theorem ovStep_posts_by_date (st : OvState) (p : Post) :
    (ovStep st p).posts_by_date =
      if extract_date p ≠ "" then mupd st.posts_by_date (extract_date p) (· + 1) 0
      else st.posts_by_date := rfl

/-- C3 as amended: a post whose extracted date is empty is excluded from
every date-keyed aggregate — appending it changes neither the overview
timeline, nor the sentiment timeline, nor the topic evolution — and it is
skipped by the whole Network stage (its author accrues no post count toward
node selection there), while it still contributes to the overview author and
subreddit tallies and to the global sentiment distribution. -/
theorem C3_amended_empty_date (data : List Post) (p : Post) (score : String → ℚ)
    (hd : extract_date p = "") :
    (compute_overview (data ++ [p])).timeline = (compute_overview data).timeline ∧
    (compute_sentiment score (data ++ [p])).timeline
      = (compute_sentiment score data).timeline ∧
    (∀ (n : Nat) (topics : List Topic),
      topic_evolution n topics (data ++ [p]) = topic_evolution n topics data) ∧
    compute_network 500 (data ++ [p]) = compute_network 500 data ∧
    (p.author ≠ "" ∧ p.author ≠ "[deleted]" →
      mget (overviewCounts (data ++ [p])).author_post_count p.author 0
        = mget (overviewCounts data).author_post_count p.author 0 + 1) ∧
    (p.subreddit ≠ "" →
      mget (overviewCounts (data ++ [p])).subreddit_count p.subreddit 0
        = mget (overviewCounts data).subreddit_count p.subreddit 0 + 1) ∧
    (get_full_text p ≠ "" →
      distSum (compute_sentiment score (data ++ [p])).distribution
        = distSum (compute_sentiment score data).distribution + 1) := by
  have hfold : ∀ {α : Type} (f : α → Post → α) (i : α),
      (data ++ [p]).foldl f i = f (data.foldl f i) p := by
    intro α f i
    rw [List.foldl_append]
    simp
  refine ⟨?_, ?_, ?_, ?_, ?_, ?_, ?_⟩
  · have hpbd : (overviewCounts (data ++ [p])).posts_by_date
        = (overviewCounts data).posts_by_date := by
      unfold overviewCounts
      rw [hfold, ovStep_posts_by_date, if_neg (fun hc => hc hd)]
    rw [compute_overview_timeline, compute_overview_timeline, hpbd]
  · have hbd : ((data ++ [p]).foldl (sentStep score) sentInit).byDate
        = (data.foldl (sentStep score) sentInit).byDate := by
      rw [hfold, sentStep_byDate, if_pos (Or.inr hd)]
    rw [compute_sentiment_timeline, compute_sentiment_timeline, hbd]
  · intro n topics
    have hm : (data ++ [p]).foldl (evoStep n topics) []
        = data.foldl (evoStep n topics) [] := by
      rw [hfold, evoStep_eq, if_pos (Or.inr hd)]
    simp only [topic_evolution]
    rw [hm]
  · have hst : (data ++ [p]).foldl netStep ⟨[], []⟩ = data.foldl netStep ⟨[], []⟩ := by
      rw [hfold]
      exact netStep_skip _ _ (fun hc => hc.2.2.2 hd)
    unfold compute_network
    rw [hst]
  · intro ha
    unfold overviewCounts
    rw [hfold, ovStep_author_count, if_pos ha, mget_mupd_self]
  · intro hs
    unfold overviewCounts
    rw [hfold, ovStep_subreddit_count, if_pos hs]
    rw [mget_mupd_self]
  · intro ht
    have hL : distSum (compute_sentiment score (data ++ [p])).distribution
        = distSum sentInit.dist
          + (data ++ [p]).countP (fun q => decide (get_full_text q ≠ "")) :=
      sent_dist_sum score (data ++ [p]) sentInit
    have hR : distSum (compute_sentiment score data).distribution
        = distSum sentInit.dist + data.countP (fun q => decide (get_full_text q ≠ "")) :=
      sent_dist_sum score data sentInit
    rw [hL, hR, List.countP_append]
    have hp1 : [p].countP (fun q => decide (get_full_text q ≠ "")) = 1 := by
      simp [List.countP_cons, ht]
    rw [hp1]
    omega

theorem C3_amended_witness :
    (compute_overview ([] ++ [pEmptyDate])).timeline = (compute_overview []).timeline ∧
    compute_network 500 ([] ++ [pEmptyDate]) = compute_network 500 [] ∧
    mget (overviewCounts ([] ++ [pEmptyDate])).author_post_count pEmptyDate.author 0
      = mget (overviewCounts []).author_post_count pEmptyDate.author 0 + 1 := by
  have h := C3_amended_empty_date [] pEmptyDate (fun _ => 0) (by decide)
  exact ⟨h.1, h.2.2.2.1, h.2.2.2.2.1 (by decide)⟩

/-! ### Orchestrator claims (C1, C2) -/

/-- C1 (code bug): with both optional libraries available and no event
file, the sentiment, topics and network stages all produce results, yet
`main` writes only `overview.json` — it has no save branch for sentiment,
topics, network or the semantic map, so the set of written artifacts does
not equal the set of stages that produced output. -/
theorem C1_only_overview_saved :
    runMain true true (fun _ => 0) (fun _ => some evoComps) (fun _ => []) (fun _ => [])
        none [pOne] = .ok ["overview.json"] ∧
    (compute_sentiment (fun _ => 0) [pOne]).post_sentiments.length = 1 ∧
    (compute_topicsOpt true (fun _ => some evoComps) [pOne]).isSome = true ∧
    (compute_network 500 [pOne]).nodes.length = 1 := by
  refine ⟨rfl, ?_, rfl, ?_⟩
  · decide
  · decide

/-- C2 (code bug): with the event file present, `compute_event_correlations`
subscripts `None` when the sentiment stage (or the topic stage) returned no
output, raising `TypeError` and aborting the run before anything is saved —
the correlation stage does not complete as the claim states. -/
theorem C2_crash_on_missing_sentiment :
    runMain false true (fun _ => 0) (fun _ => some evoComps) (fun _ => []) (fun _ => [])
        (some [evOne]) [pOne]
      = .error "TypeError: NoneType object is not subscriptable" ∧
    compute_event_correlations (some [evOne]) (compute_overview [pOne])
        (some (compute_sentiment (fun _ => 0) [pOne])) none
      = .error "TypeError: NoneType object is not subscriptable" :=
  ⟨rfl, rfl⟩

end PA
